import Mathlib

/-!
Verification of the sparse-vector dot-product kernel of `scripts/bench_spdot.rs`
(`SparseVector::from_dense` and `SparseVector::sparse_dot_product`).

Modelling conventions:
  * Rust `u16` indices are `Nat`s; where 16-bit wrap-around matters the
    reduction `% 65536` is written explicitly (release-mode `u16` addition
    wraps; only the final counter value is observed, so wrapping at the end
    equals wrapping at each increment).
  * Rust `f32` values are modelled by `F32` for the construction routine
    (whose only float operation is the IEEE-754 comparison `value != 0.0`),
    and the dot-product routine is kept parametric in the value type and the
    three float operations it performs (`f32` multiply, `f64::from`
    promotion, `f64` addition), so each theorem states exactly which
    arithmetic facts it uses.
  * A Rust panic (the `from_dense` length check, a slice access out of
    bounds) is `none` / `LoopResult.fault`.
-/

set_option maxRecDepth 8192

namespace BenchSpdot

/-- IEEE-754 binary32 values, modelled with just enough structure for the
operations the benchmarked code performs on them.  `num q` is a finite value
of numeric magnitude `q` (this subsumes positive zero as `num 0`); negative
zero, the infinities and NaN are kept apart because the one float
comparison in the code, `value != 0.0`, distinguishes exactly these classes. -/
inductive F32 where
  | nan : F32
  | negZero : F32
  | inf : F32
  | negInf : F32
  | num : Rat → F32
deriving DecidableEq, Repr

/-- The Rust comparison `value != 0.0` on an `f32`, by IEEE-754 semantics:
false exactly for positive zero (`num 0`) and negative zero (`-0.0 == 0.0`);
true for NaN (NaN compares unequal to everything), both infinities and every
finite nonzero value. -/
def F32.neZero : F32 → Bool
  | .nan => true
  | .negZero => false
  | .inf => true
  | .negInf => true
  | .num q => q != 0

/-- The `SparseVector` struct: `indices: Vec<u16>`, `values: Vec<f32>`.
Indices are `Nat`s (every `u16` value embeds); the value type is a
parameter (`F32` for the construction claims, arbitrary for the
dot-product claims, which hold for any value arithmetic). -/
structure SparseVector (α : Type) where
  indices : List Nat
  values : List α
deriving DecidableEq, Repr

/-- The loop body of `from_dense`: scan the dense tail whose head sits at
dense position `idx`, pushing the position and value of every entry with
`value != 0.0`.  The Rust loop pushes in increasing position order; the
recursion conses the current entry onto the translation of the rest, which
builds the same lists. -/
def from_dense_go (idx : Nat) : List F32 → List Nat × List F32
  | [] => ([], [])
  | v :: rest =>
    let acc := from_dense_go (idx + 1) rest
    if v.neZero then (idx :: acc.1, v :: acc.2) else acc

/-- `SparseVector::from_dense`.  The Rust function panics ("Dense vector is
too large...") when `dense_vec.len() >= u16::MAX as usize`, i.e. when the
length is at least 65535; the panic is modelled as `none`.  (The subsequent
`idx.try_into().unwrap()` can then never fail: every kept position is below
65534.) -/
def from_dense (dense_vec : List F32) : Option (SparseVector F32) :=
  if 65535 ≤ dense_vec.length then
    none
  else
    some { indices := (from_dense_go 0 dense_vec).1
           values := (from_dense_go 0 dense_vec).2 }

/-- The three floating-point operations `sparse_dot_product` performs, kept
abstract: `mul` is `f32` multiplication (`self.values[i] * other.values[j]`),
`toDouble` is the `f64::from` promotion, `add` is `f64` addition (`result +=`),
`zero` is the initial `result = 0.0`. -/
structure FloatOps (α β : Type) where
  mul : α → α → α
  toDouble : α → β
  add : β → β → β
  zero : β

/-- Exact-arithmetic instantiation of the float operations over `Rat` (used
to state the numerical-tolerance claims). -/
def ratOps : FloatOps Rat Rat where
  mul := fun x y => x * y
  toDouble := id
  add := fun x y => x + y
  zero := 0

/-- Exact-arithmetic instantiation over `Int` (kernel-reducible, used to run
the kernel on concrete inputs). -/
def intOps : FloatOps Int Int where
  mul := fun x y => x * y
  toDouble := id
  add := fun x y => x + y
  zero := 0

/-- Outcome of the merge loop: normal exit carrying the match counter and the
accumulator, a panic from a slice access out of bounds (`fault`), or fuel
exhaustion (`spin` — provably unreachable once the fuel covers the remaining
cursor travel, see `sdpLoop_halts`). -/
inductive LoopResult (β : Type) where
  | out : Nat → β → LoopResult β
  | fault : LoopResult β
  | spin : LoopResult β
deriving DecidableEq, Repr

/-- `true` unless the loop ran out of fuel. -/
def LoopResult.halts : LoopResult β → Bool
  | .spin => false
  | _ => true

/-- The `while` loop of `sparse_dot_product`, one fuel unit per iteration.
`i` and `j` are the two cursors, `mcount` the counter, `acc` the running
`result`.  The guard `i < self.indices.len() && j < other.indices.len()`
makes both index accesses in bounds by construction; the value accesses
`self.values[i]` / `other.values[j]` (reached only on an index match) are
slice accesses that panic out of bounds, hence `Option`-checked. -/
def sdpLoop (ops : FloatOps α β) (a b : SparseVector α)
    (fuel i j mcount : Nat) (acc : β) : LoopResult β :=
  if h : i < a.indices.length ∧ j < b.indices.length then
    match fuel with
    | 0 => .spin
    | fuel' + 1 =>
      if a.indices.get ⟨i, h.1⟩ = b.indices.get ⟨j, h.2⟩ then
        match a.values.get? i, b.values.get? j with
        | some av, some bv =>
          sdpLoop ops a b fuel' (i + 1) (j + 1) (mcount + 1)
            (ops.add acc (ops.toDouble (ops.mul av bv)))
        | _, _ => .fault
      else if a.indices.get ⟨i, h.1⟩ < b.indices.get ⟨j, h.2⟩ then
        sdpLoop ops a b fuel' (i + 1) j mcount acc
      else
        sdpLoop ops a b fuel' i (j + 1) mcount acc
  else
    .out mcount acc

/-- `SparseVector::sparse_dot_product`.  The fuel `len(a) + len(b)` covers
the whole cursor travel (each iteration advances at least one cursor), so the
`spin` branch is unreachable (`sdpLoop_halts`); a `fault` (slice access out
of bounds, a Rust panic) is `none`.  The counter is a `u16` in Rust: the
returned value is the exact count reduced mod 2^16 (release-mode wrapping
arithmetic; only the final value of the counter is observable). -/
def sparse_dot_product (ops : FloatOps α β) (a b : SparseVector α) :
    Option (Nat × β) :=
  match sdpLoop ops a b (a.indices.length + b.indices.length) 0 0 0 ops.zero with
  | .out mcount acc => some (mcount % 65536, acc)
  | _ => none

/-- The `SparseVector` invariant stated by the design: values positionally
aligned with indices, and indices sorted strictly ascending (“sorted
ascending and no duplicates”). -/
def SparseVector.Valid (v : SparseVector α) : Prop :=
  v.values.length = v.indices.length ∧ v.indices.Sorted (· < ·)

instance (v : SparseVector α) : Decidable v.Valid := by
  unfold SparseVector.Valid; infer_instance

/-! ## Reference (specification-level) definitions

These follow the words of the spec — "matchCount equals the count of shared
indices", "dotProduct is the sum, over matched indices, of the product of
corresponding values" — and are what the merge loop is proved against. -/

/-- The matched `(value_a, value_b)` pairs of two index/value association
lists, in the order of the first list: each key of `la` that also occurs in
`lb` contributes the pair of its two associated values. -/
def mPairs (la lb : List (Nat × α)) : List (α × α) :=
  la.filterMap (fun p => (lb.lookup p.1).map (fun bv => (p.2, bv)))

/-- The matched value pairs of two sparse vectors, in ascending index order
(for a sorted first operand). -/
def matchedPairs (a b : SparseVector α) : List (α × α) :=
  mPairs (a.indices.zip a.values) (b.indices.zip b.values)

/-- The shared indices: members of `xs` that also occur in `ys`, in the
order of `xs`. -/
def interList (xs ys : List Nat) : List Nat :=
  xs.filter (fun i => decide (i ∈ ys))

/-- Specification-level match count: how many indices the operands share. -/
def specCount (a b : SparseVector α) : Nat :=
  (interList a.indices b.indices).length

/-- Specification-level dot product: promote each matched product and sum
left-to-right from zero. -/
def specDot (ops : FloatOps α β) (a b : SparseVector α) : β :=
  ((matchedPairs a b).map (fun p => ops.toDouble (ops.mul p.1 p.2))).foldl
    ops.add ops.zero

/-- Modelled from the spec: `simsimd::sparse_dot_product`, the vectorized
(SIMD) implementation benchmarked next to the scalar one, is an external
crate whose sources are not part of the files under review; §4.3 of the
design fixes its contract as "same signature and same mathematical result
as 4.2", the mathematical result being the shared-index count and the sum
of promoted matched products.  It is therefore modelled as exactly that
reference result (with the same 16-bit counter width as the scalar
routine). -/
def simsimd_sparse_dot_product (ops : FloatOps α β) (a b : SparseVector α) :
    Nat × β :=
  (specCount a b % 65536, specDot ops a b)

/-- The two-cursor merge on explicit association lists — the proof-side
restatement of `sdpLoop` that recursion on lists can take apart (the loop
itself is proved equal to it in `sdpLoop_eq_mergeDot`). -/
def mergeDot (ops : FloatOps α β) :
    List (Nat × α) → List (Nat × α) → Nat → β → Nat × β
  | [], _, mcount, acc => (mcount, acc)
  | _ :: _, [], mcount, acc => (mcount, acc)
  | (ia, va) :: ra, (ib, vb) :: rb, mcount, acc =>
    if ia = ib then
      mergeDot ops ra rb (mcount + 1) (ops.add acc (ops.toDouble (ops.mul va vb)))
    else if ia < ib then
      mergeDot ops ra ((ib, vb) :: rb) mcount acc
    else
      mergeDot ops ((ia, va) :: ra) rb mcount acc
termination_by la lb _ _ => la.length + lb.length
decreasing_by all_goals simp_wf <;> omega

/-- Strictly ascending keys of an association list. -/
def KeySorted (l : List (Nat × α)) : Prop :=
  l.Pairwise (fun p q => p.1 < q.1)

/-- The full-overlap scenario worked out in spec §8: `a = {1, 3, 5} / {2, 3, 4}`
against `b = {1, 3, 5} / {1, 1, 1}` gives `(3, 9.0)`. -/
lemma kernel_example_full_overlap :
    sparse_dot_product intOps ⟨[1, 3, 5], [2, 3, 4]⟩ ⟨[1, 3, 5], [1, 1, 1]⟩ =
      some (3, 9) := by decide

/-- The disjoint scenario of spec §8 gives `(0, 0.0)`. -/
lemma kernel_example_disjoint :
    sparse_dot_product intOps ⟨[1, 3, 5], [2, 3, 4]⟩ ⟨[2, 4, 6], [1, 1, 1]⟩ =
      some (0, 0) := by decide

/-- Two empty operands give `(0, 0.0)`. -/
lemma kernel_example_empty :
    sparse_dot_product intOps ⟨[], []⟩ ⟨[], []⟩ = some (0, 0) := by decide

/-- The conversion keeps exactly the two entries `!= 0.0` (one of them NaN). -/
lemma from_dense_example :
    from_dense [F32.num 0, F32.num 2, F32.negZero, F32.nan] =
      some ⟨[1, 3], [F32.num 2, F32.nan]⟩ := by decide

/-- A misaligned (invalid) operand faults on the first match — the values
array is shorter than the indices array, so `self.values[i]` is out of
bounds. -/
lemma kernel_example_misaligned_faults :
    sparse_dot_product intOps ⟨[1, 3], [2]⟩ ⟨[3], [1]⟩ = none := by decide

/-! ## Properties of the dense-to-sparse scan -/

lemma from_dense_go_length (idx : Nat) (l : List F32) :
    (from_dense_go idx l).2.length = (from_dense_go idx l).1.length := by
  induction l generalizing idx with
  | nil => rfl
  | cons v rest ih =>
    simp only [from_dense_go]
    by_cases h : v.neZero <;> simp [h, ih]

lemma from_dense_go_bound (idx : Nat) (l : List F32) :
    ∀ x ∈ (from_dense_go idx l).1, idx ≤ x := by
  induction l generalizing idx with
  | nil => simp [from_dense_go]
  | cons v rest ih =>
    intro x hx
    simp only [from_dense_go] at hx
    by_cases h : v.neZero
    · simp [h] at hx
      rcases hx with rfl | hx
      · exact le_refl x
      · exact Nat.le_of_succ_le (ih (idx + 1) x hx)
    · simp [h] at hx
      exact Nat.le_of_succ_le (ih (idx + 1) x hx)

lemma from_dense_go_sorted (idx : Nat) (l : List F32) :
    (from_dense_go idx l).1.Sorted (· < ·) := by
  induction l generalizing idx with
  | nil => simp [from_dense_go]
  | cons v rest ih =>
    simp only [from_dense_go]
    by_cases h : v.neZero
    · simp only [h, if_pos]
      refine List.sorted_cons.mpr ⟨?_, ih (idx + 1)⟩
      intro b hb
      exact Nat.lt_of_succ_le (from_dense_go_bound (idx + 1) rest b hb)
    · simpa [h] using ih (idx + 1)

lemma from_dense_go_mem (idx : Nat) (l : List F32) (i : Nat) :
    i ∈ (from_dense_go idx l).1 ↔
      ∃ k x, l[k]? = some x ∧ x.neZero = true ∧ i = idx + k := by
  induction l generalizing idx with
  | nil => simp [from_dense_go]
  | cons v rest ih =>
    simp only [from_dense_go]
    constructor
    · intro hi
      by_cases h : v.neZero
      · simp [h] at hi
        rcases hi with rfl | hi
        · exact ⟨0, v, by simp, h, rfl⟩
        · obtain ⟨k, x, hk, hx, hik⟩ := (ih (idx + 1)).mp hi
          exact ⟨k + 1, x, by simpa using hk, hx, by omega⟩
      · simp [h] at hi
        obtain ⟨k, x, hk, hx, hik⟩ := (ih (idx + 1)).mp hi
        exact ⟨k + 1, x, by simpa using hk, hx, by omega⟩
    · rintro ⟨k, x, hk, hx, rfl⟩
      match k, hk with
      | 0, hk =>
        simp at hk
        subst hk
        simp [hx]
      | k + 1, hk =>
        simp at hk
        have : idx + (k + 1) ∈ (from_dense_go (idx + 1) rest).1 :=
          (ih (idx + 1)).mpr ⟨k, x, hk, hx, by omega⟩
        by_cases h : v.neZero <;> simp [h, this]

lemma from_dense_go_pairs (idx : Nat) (l : List F32) :
    ∀ p ∈ (from_dense_go idx l).1.zip (from_dense_go idx l).2,
      l[p.1 - idx]? = some p.2 ∧ p.2.neZero = true := by
  induction l generalizing idx with
  | nil => simp [from_dense_go]
  | cons v rest ih =>
    intro p hp
    simp only [from_dense_go] at hp
    by_cases h : v.neZero
    · simp only [h, if_pos, List.zip_cons_cons, List.mem_cons] at hp
      rcases hp with rfl | hp
      · simpa using h
      · have hb : idx + 1 ≤ p.1 := by
          have := List.of_mem_zip hp
          exact from_dense_go_bound (idx + 1) rest p.1 this.1
        have := ih (idx + 1) p hp
        constructor
        · have hgt : p.1 - idx = (p.1 - (idx + 1)) + 1 := by omega
          rw [hgt]
          simpa using this.1
        · exact this.2
    · simp only [h, if_neg, Bool.false_eq_true, not_false_iff] at hp
      have hb : idx + 1 ≤ p.1 := by
        have := List.of_mem_zip hp
        exact from_dense_go_bound (idx + 1) rest p.1 this.1
      have := ih (idx + 1) p hp
      refine ⟨?_, this.2⟩
      have hgt : p.1 - idx = (p.1 - (idx + 1)) + 1 := by omega
      rw [hgt]
      simpa using this.1

/-! ## Association-list lookups over strictly sorted keys -/

lemma lookup_cons_self (k : Nat) (b : α) (l : List (Nat × α)) :
    ((k, b) :: l).lookup k = some b := by
  simp [List.lookup_cons]

lemma lookup_cons_ne (a k : Nat) (b : α) (l : List (Nat × α)) (h : a ≠ k) :
    ((k, b) :: l).lookup a = l.lookup a := by
  have hb : (a == k) = false := beq_eq_false_iff_ne.mpr h
  simp [List.lookup_cons, hb]

lemma lookup_eq_none (a : Nat) (l : List (Nat × α)) (h : ∀ p ∈ l, p.1 ≠ a) :
    l.lookup a = none := by
  induction l with
  | nil => rfl
  | cons p rest ih =>
    obtain ⟨k, b⟩ := p
    have hk : a ≠ k := fun he => h (k, b) (by simp) (by simp [he])
    rw [lookup_cons_ne a k b rest hk]
    exact ih (fun q hq => h q (by simp [hq]))

lemma mPairs_nil_left (lb : List (Nat × α)) : mPairs [] lb = [] := rfl

lemma mPairs_nil_right (la : List (Nat × α)) : mPairs la [] = [] := by
  simp [mPairs]

lemma mPairs_cons_cons_eq (ia : Nat) (va vb : α) (ra rb : List (Nat × α))
    (hra : ∀ p ∈ ra, ia < p.1) :
    mPairs ((ia, va) :: ra) ((ia, vb) :: rb) = (va, vb) :: mPairs ra rb := by
  simp only [mPairs, List.filterMap_cons, lookup_cons_self, Option.map_some']
  congr 1
  apply List.filterMap_congr
  intro p hp
  rw [lookup_cons_ne _ _ _ _ (Nat.ne_of_gt (hra p hp))]

lemma mPairs_skip_left (ia : Nat) (va : α) (ra lb : List (Nat × α))
    (h : lb.lookup ia = none) :
    mPairs ((ia, va) :: ra) lb = mPairs ra lb := by
  simp [mPairs, List.filterMap_cons, h]

lemma mPairs_skip_right (la : List (Nat × α)) (ib : Nat) (vb : α)
    (rb : List (Nat × α)) (h : ∀ p ∈ la, p.1 ≠ ib) :
    mPairs la ((ib, vb) :: rb) = mPairs la rb := by
  apply List.filterMap_congr
  intro p hp
  rw [lookup_cons_ne _ _ _ _ (h p hp)]

lemma KeySorted.tail {p : Nat × α} {l : List (Nat × α)}
    (h : KeySorted (p :: l)) : KeySorted l :=
  (List.pairwise_cons.mp h).2

lemma KeySorted.head_lt {p : Nat × α} {l : List (Nat × α)}
    (h : KeySorted (p :: l)) : ∀ q ∈ l, p.1 < q.1 :=
  (List.pairwise_cons.mp h).1

/-- The two-cursor merge computes the reference result: starting from
counter `m` and accumulator `acc`, it ends with `m` plus the number of
matched pairs, and with every promoted matched product folded into `acc`
left to right, in the key order of the first operand. -/
lemma mergeDot_eq_spec (ops : FloatOps α β) :
    ∀ (la lb : List (Nat × α)) (m : Nat) (acc : β),
      KeySorted la → KeySorted lb →
      mergeDot ops la lb m acc =
        (m + (mPairs la lb).length,
         ((mPairs la lb).map (fun p => ops.toDouble (ops.mul p.1 p.2))).foldl
           ops.add acc) := by
  intro la lb m acc
  induction la, lb, m, acc using mergeDot.induct ops with
  | case1 lb m acc => intro _ _; simp [mergeDot, mPairs_nil_left]
  | case2 p ra m acc => intro _ _; simp [mergeDot, mPairs_nil_right]
  | case3 va ra ib vb rb m acc ih =>
    intro ha hb
    rw [mergeDot]
    simp only [if_pos rfl]
    rw [ih ha.tail hb.tail]
    have hps : ∀ p ∈ ra, ib < p.1 := fun p hp => ha.head_lt p hp
    rw [mPairs_cons_cons_eq ib va vb ra rb hps]
    simp only [List.length_cons, List.map_cons, List.foldl_cons]
    rw [if_pos trivial]
    congr 1
    omega
  | case4 ia va ra ib vb rb m acc hne hlt ih =>
    intro ha hb
    rw [mergeDot, if_neg hne, if_pos hlt]
    rw [ih ha.tail hb]
    have hnone : ((ib, vb) :: rb).lookup ia = none := by
      apply lookup_eq_none
      intro p hp
      rcases List.mem_cons.mp hp with rfl | hp
      · exact fun he => hne he.symm
      · exact Nat.ne_of_gt (lt_trans hlt (hb.head_lt p hp))
    rw [mPairs_skip_left ia va ra _ hnone]
  | case5 ia va ra ib vb rb m acc hne hnlt ih =>
    intro ha hb
    rw [mergeDot, if_neg hne, if_neg hnlt]
    rw [ih ha hb.tail]
    have hgt : ib < ia := by omega
    have hall : ∀ p ∈ (ia, va) :: ra, p.1 ≠ ib := by
      intro p hp
      rcases List.mem_cons.mp hp with rfl | hp
      · exact Nat.ne_of_gt hgt
      · exact Nat.ne_of_gt (lt_trans hgt (ha.head_lt p hp))
    rw [mPairs_skip_right _ ib vb rb hall]

lemma mergeDot_nil_right (ops : FloatOps α β) (la : List (Nat × α)) (m : Nat)
    (acc : β) : mergeDot ops la [] m acc = (m, acc) := by
  cases la <;> simp [mergeDot]

/-! ## The cursor loop -/

/-- Unfolding equation of `sdpLoop` when the guard fails. -/
lemma sdpLoop_of_neg (ops : FloatOps α β) (a b : SparseVector α)
    (fuel i j mcount : Nat) (acc : β)
    (hg : ¬(i < a.indices.length ∧ j < b.indices.length)) :
    sdpLoop ops a b fuel i j mcount acc = .out mcount acc := by
  rw [sdpLoop, dif_neg hg]

/-- Unfolding equation of `sdpLoop` when the guard holds and fuel remains. -/
lemma sdpLoop_succ_of_pos (ops : FloatOps α β) (a b : SparseVector α)
    (fuel i j mcount : Nat) (acc : β)
    (hga : i < a.indices.length) (hgb : j < b.indices.length) :
    sdpLoop ops a b (fuel + 1) i j mcount acc =
      if a.indices.get ⟨i, hga⟩ = b.indices.get ⟨j, hgb⟩ then
        match a.values.get? i, b.values.get? j with
        | some av, some bv =>
          sdpLoop ops a b fuel (i + 1) (j + 1) (mcount + 1)
            (ops.add acc (ops.toDouble (ops.mul av bv)))
        | _, _ => .fault
      else if a.indices.get ⟨i, hga⟩ < b.indices.get ⟨j, hgb⟩ then
        sdpLoop ops a b fuel (i + 1) j mcount acc
      else
        sdpLoop ops a b fuel i (j + 1) mcount acc := by
  rw [sdpLoop, dif_pos ⟨hga, hgb⟩]

/-- The loop always terminates: fuel equal to the remaining cursor travel
`(len(a) - i) + (len(b) - j)` is enough, because every iteration advances at
least one cursor, and the loop exits as soon as either cursor reaches the
end of its array.  No sortedness or alignment is assumed. -/
lemma sdpLoop_halts (ops : FloatOps α β) (a b : SparseVector α) :
    ∀ (fuel i j mcount : Nat) (acc : β),
      a.indices.length - i + (b.indices.length - j) ≤ fuel →
      (sdpLoop ops a b fuel i j mcount acc).halts = true := by
  intro fuel
  induction fuel with
  | zero =>
    intro i j mcount acc hf
    have hg : ¬(i < a.indices.length ∧ j < b.indices.length) := by omega
    rw [sdpLoop_of_neg ops a b 0 i j mcount acc hg]
    rfl
  | succ fuel' ih =>
    intro i j mcount acc hf
    by_cases hg : i < a.indices.length ∧ j < b.indices.length
    · rw [sdpLoop_succ_of_pos ops a b fuel' i j mcount acc hg.1 hg.2]
      by_cases he : a.indices.get ⟨i, hg.1⟩ = b.indices.get ⟨j, hg.2⟩
      · rw [if_pos he]
        rcases hv : a.values.get? i with _ | av <;>
          rcases hw : b.values.get? j with _ | bv
        · rfl
        · rfl
        · rfl
        · exact ih (i + 1) (j + 1) (mcount + 1) _ (by omega)
      · rw [if_neg he]
        by_cases hlt : a.indices.get ⟨i, hg.1⟩ < b.indices.get ⟨j, hg.2⟩
        · rw [if_pos hlt]
          exact ih (i + 1) j mcount acc (by omega)
        · rw [if_neg hlt]
          exact ih i (j + 1) mcount acc (by omega)
    · rw [sdpLoop_of_neg ops a b _ i j mcount acc hg]
      rfl

/-- Refinement of the cursor loop by the list-level merge: when the values of each
operand are aligned with its indices and the fuel covers the
remaining cursor travel, the loop from cursors `(i, j)` computes exactly
`mergeDot` of the zipped index/value suffixes — in particular it neither
faults nor spins. -/
lemma sdpLoop_eq_mergeDot (ops : FloatOps α β) (a b : SparseVector α)
    (ha : a.values.length = a.indices.length)
    (hb : b.values.length = b.indices.length) :
    ∀ (fuel i j mcount : Nat) (acc : β),
      a.indices.length - i + (b.indices.length - j) ≤ fuel →
      sdpLoop ops a b fuel i j mcount acc =
        LoopResult.out
          (mergeDot ops ((a.indices.zip a.values).drop i)
            ((b.indices.zip b.values).drop j) mcount acc).1
          (mergeDot ops ((a.indices.zip a.values).drop i)
            ((b.indices.zip b.values).drop j) mcount acc).2 := by
  have hza : (a.indices.zip a.values).length = a.indices.length := by
    rw [List.length_zip, ha, Nat.min_self]
  have hzb : (b.indices.zip b.values).length = b.indices.length := by
    rw [List.length_zip, hb, Nat.min_self]
  intro fuel
  induction fuel with
  | zero =>
    intro i j mcount acc hf
    have hg : ¬(i < a.indices.length ∧ j < b.indices.length) := by omega
    rw [sdpLoop_of_neg ops a b 0 i j mcount acc hg]
    rw [List.drop_eq_nil_of_le (by omega : (a.indices.zip a.values).length ≤ i)]
    simp [mergeDot]
  | succ fuel' ih =>
    intro i j mcount acc hf
    by_cases hg : i < a.indices.length ∧ j < b.indices.length
    · have hga : i < a.indices.length := hg.1
      have hgb : j < b.indices.length := hg.2
      have hvai : i < a.values.length := by omega
      have hvbj : j < b.values.length := by omega
      have hiz : i < (a.indices.zip a.values).length := by omega
      have hjz : j < (b.indices.zip b.values).length := by omega
      have hdropA : (a.indices.zip a.values).drop i =
          (a.indices.get ⟨i, hga⟩, a.values.get ⟨i, hvai⟩) ::
            (a.indices.zip a.values).drop (i + 1) := by
        rw [List.drop_eq_getElem_cons hiz]
        simp [List.getElem_zip]
      have hdropB : (b.indices.zip b.values).drop j =
          (b.indices.get ⟨j, hgb⟩, b.values.get ⟨j, hvbj⟩) ::
            (b.indices.zip b.values).drop (j + 1) := by
        rw [List.drop_eq_getElem_cons hjz]
        simp [List.getElem_zip]
      rw [sdpLoop_succ_of_pos ops a b fuel' i j mcount acc hga hgb]
      have hva : a.values.get? i = some (a.values.get ⟨i, hvai⟩) := by
        simp
      have hvb : b.values.get? j = some (b.values.get ⟨j, hvbj⟩) := by
        simp
      rw [hdropA, hdropB]
      by_cases he : a.indices.get ⟨i, hga⟩ = b.indices.get ⟨j, hgb⟩
      · rw [if_pos he, hva, hvb]
        rw [mergeDot, if_pos he]
        exact ih (i + 1) (j + 1) (mcount + 1) _ (by omega)
      · rw [if_neg he]
        by_cases hlt : a.indices.get ⟨i, hga⟩ < b.indices.get ⟨j, hgb⟩
        · rw [if_pos hlt]
          rw [mergeDot, if_neg he, if_pos hlt, ← hdropB]
          exact ih (i + 1) j mcount acc (by omega)
        · rw [if_neg hlt]
          rw [mergeDot, if_neg he, if_neg hlt, ← hdropA]
          exact ih i (j + 1) mcount acc (by omega)
    · rw [sdpLoop_of_neg ops a b _ i j mcount acc hg]
      rcases (by omega : a.indices.length ≤ i ∨ b.indices.length ≤ j) with hia | hjb
      · rw [List.drop_eq_nil_of_le (by omega : (a.indices.zip a.values).length ≤ i)]
        simp [mergeDot]
      · rw [List.drop_eq_nil_of_le (by omega : (b.indices.zip b.values).length ≤ j),
          mergeDot_nil_right]

/-- The loop is symmetric in its operands: swapping the vectors and the two
cursors gives the same outcome, provided the multiplication is commutative —
on an index match both runs multiply the same value pair, in opposite
orders.  No sortedness or alignment is needed. -/
lemma sdpLoop_comm (ops : FloatOps α β)
    (hmul : ∀ x y, ops.mul x y = ops.mul y x) (a b : SparseVector α) :
    ∀ (fuel i j mcount : Nat) (acc : β),
      sdpLoop ops a b fuel i j mcount acc =
        sdpLoop ops b a fuel j i mcount acc := by
  intro fuel
  induction fuel with
  | zero =>
    intro i j mcount acc
    by_cases hg : i < a.indices.length ∧ j < b.indices.length
    · rw [sdpLoop, dif_pos hg, sdpLoop, dif_pos (And.intro hg.2 hg.1)]
    · rw [sdpLoop_of_neg ops a b 0 i j mcount acc hg,
        sdpLoop_of_neg ops b a 0 j i mcount acc (by tauto)]
  | succ fuel' ih =>
    intro i j mcount acc
    by_cases hg : i < a.indices.length ∧ j < b.indices.length
    · rw [sdpLoop_succ_of_pos ops a b fuel' i j mcount acc hg.1 hg.2,
        sdpLoop_succ_of_pos ops b a fuel' j i mcount acc hg.2 hg.1]
      by_cases he : a.indices.get ⟨i, hg.1⟩ = b.indices.get ⟨j, hg.2⟩
      · rw [if_pos he, if_pos he.symm]
        rcases hv : a.values.get? i with _ | av <;>
          rcases hw : b.values.get? j with _ | bv
        · rfl
        · rfl
        · rfl
        · show sdpLoop ops a b fuel' (i + 1) (j + 1) (mcount + 1)
              (ops.add acc (ops.toDouble (ops.mul av bv))) =
            sdpLoop ops b a fuel' (j + 1) (i + 1) (mcount + 1)
              (ops.add acc (ops.toDouble (ops.mul bv av)))
          rw [hmul av bv]
          exact ih (i + 1) (j + 1) (mcount + 1) _
      · have hne' : ¬(b.indices.get ⟨j, hg.2⟩ = a.indices.get ⟨i, hg.1⟩) :=
          fun hx => he hx.symm
        rw [if_neg he, if_neg hne']
        by_cases hlt : a.indices.get ⟨i, hg.1⟩ < b.indices.get ⟨j, hg.2⟩
        · have hnlt' : ¬(b.indices.get ⟨j, hg.2⟩ < a.indices.get ⟨i, hg.1⟩) := by
            omega
          rw [if_pos hlt, if_neg hnlt']
          exact ih (i + 1) j mcount acc
        · have hlt' : b.indices.get ⟨j, hg.2⟩ < a.indices.get ⟨i, hg.1⟩ := by
            omega
          rw [if_neg hlt, if_pos hlt']
          exact ih i (j + 1) mcount acc
    · rw [sdpLoop_of_neg ops a b _ i j mcount acc hg,
        sdpLoop_of_neg ops b a _ j i mcount acc (by tauto)]

/-- Zipping strictly sorted indices with aligned values yields a key-sorted
association list. -/
lemma keySorted_zip (ind : List Nat) (vals : List α)
    (hs : ind.Sorted (· < ·)) (hlen : vals.length = ind.length) :
    KeySorted (ind.zip vals) := by
  have hmap : (ind.zip vals).map Prod.fst = ind :=
    List.map_fst_zip ind vals (by omega)
  have hpm : ((ind.zip vals).map Prod.fst).Pairwise (· < ·) := by
    rw [hmap]
    exact hs
  exact List.pairwise_map.mp hpm

/-- Core correctness of the kernel: on operands satisfying the invariant it
never fails, counts the matched pairs (reduced to the 16-bit counter), and
returns the reference left fold of the promoted matched products. -/
theorem sparse_dot_product_eq_spec (ops : FloatOps α β) (a b : SparseVector α)
    (ha : a.Valid) (hb : b.Valid) :
    sparse_dot_product ops a b =
      some ((matchedPairs a b).length % 65536, specDot ops a b) := by
  have hks_a : KeySorted (a.indices.zip a.values) := keySorted_zip _ _ ha.2 ha.1
  have hks_b : KeySorted (b.indices.zip b.values) := keySorted_zip _ _ hb.2 hb.1
  have hloop := sdpLoop_eq_mergeDot ops a b ha.1 hb.1
      (a.indices.length + b.indices.length) 0 0 0 ops.zero (by omega)
  rw [List.drop_zero, List.drop_zero] at hloop
  rw [mergeDot_eq_spec ops _ _ 0 ops.zero hks_a hks_b] at hloop
  rw [sparse_dot_product, hloop]
  simp [matchedPairs, specDot]

/-- A key is looked up successfully exactly when it occurs among the keys. -/
lemma lookup_isSome_iff (a : Nat) (l : List (Nat × α)) :
    (l.lookup a).isSome = true ↔ a ∈ l.map Prod.fst := by
  induction l with
  | nil => simp
  | cons p rest ih =>
    obtain ⟨k, b⟩ := p
    by_cases hk : a = k
    · subst hk
      rw [lookup_cons_self]
      simp
    · rw [lookup_cons_ne a k b rest hk]
      simp only [List.map_cons, List.mem_cons]
      rw [ih]
      constructor
      · exact fun h => Or.inr h
      · rintro (rfl | h)
        · exact absurd rfl hk
        · exact h

/-- The number of matched pairs is the number of keys of the first list that
also occur in the second. -/
lemma mPairs_length_eq (la lb : List (Nat × α)) :
    (mPairs la lb).length =
      (interList (la.map Prod.fst) (lb.map Prod.fst)).length := by
  induction la with
  | nil => rfl
  | cons p ra ih =>
    rw [mPairs, List.filterMap_cons]
    rw [interList, List.map_cons, List.filter_cons]
    by_cases hmem : p.1 ∈ lb.map Prod.fst
    · have hsome := (lookup_isSome_iff p.1 lb).mpr hmem
      rcases hlk : lb.lookup p.1 with _ | bv
      · rw [hlk] at hsome
        exact absurd hsome (by simp)
      · rw [if_pos (by simpa using hmem)]
        show ((p.2, bv) :: mPairs ra lb).length =
          (p.1 :: interList (ra.map Prod.fst) (lb.map Prod.fst)).length
        simp only [List.length_cons, ih]
    · have hnone : lb.lookup p.1 = none := by
        rcases hlk : lb.lookup p.1 with _ | bv
        · rfl
        · exact absurd ((lookup_isSome_iff p.1 lb).mp (by rw [hlk]; rfl)) hmem
      rw [hnone, if_neg (by simpa using hmem)]
      show (mPairs ra lb).length =
        (interList (ra.map Prod.fst) (lb.map Prod.fst)).length
      exact ih

/-- On valid operands the matched-pair count is the shared-index count. -/
lemma matchedPairs_length (a b : SparseVector α) (ha : a.Valid) (hb : b.Valid) :
    (matchedPairs a b).length = specCount a b := by
  have ha1 := ha.1
  have hb1 := hb.1
  rw [matchedPairs, mPairs_length_eq, specCount]
  rw [List.map_fst_zip a.indices a.values (by omega),
    List.map_fst_zip b.indices b.values (by omega)]

/-- The shared-index count is the cardinality of the set intersection of the
two index sets, for a duplicate-free first operand. -/
lemma interList_length_eq_card (xs ys : List Nat) (hx : xs.Nodup) :
    (interList xs ys).length = (xs.toFinset ∩ ys.toFinset).card := by
  have hnd : (interList xs ys).Nodup := hx.filter _
  rw [← List.toFinset_card_of_nodup hnd]
  congr 1
  ext i
  simp [interList, List.mem_filter]

/-- The shared-index count is bounded by the length of the first operand. -/
lemma interList_length_le (xs ys : List Nat) :
    (interList xs ys).length ≤ xs.length :=
  List.length_filter_le _ xs

/-- A strictly sorted list of naturals all below `n` has at most `n`
entries. -/
lemma sorted_lt_length_le (l : List Nat) (hs : l.Sorted (· < ·)) (n : Nat)
    (hb : ∀ x ∈ l, x < n) : l.length ≤ n := by
  have hnd : l.Nodup := hs.nodup
  have hsub : l.toFinset ⊆ Finset.range n := by
    intro x hx
    rw [List.mem_toFinset] at hx
    exact Finset.mem_range.mpr (hb x hx)
  have := Finset.card_le_card hsub
  rw [List.toFinset_card_of_nodup hnd, Finset.card_range] at this
  exact this

/-- What a successful `from_dense` returns: the two scan lists, and the
length was within bounds. -/
lemma from_dense_some {dense : List F32} {v : SparseVector F32}
    (h : from_dense dense = some v) :
    dense.length < 65535 ∧ v.indices = (from_dense_go 0 dense).1 ∧
      v.values = (from_dense_go 0 dense).2 := by
  rw [from_dense] at h
  by_cases hl : 65535 ≤ dense.length
  · rw [if_pos hl] at h
    exact absurd h (by simp)
  · rw [if_neg hl] at h
    injection h with h'
    subst h'
    exact ⟨by omega, rfl, rfl⟩

/-- The scan from position 0 keeps exactly the positions of the entries the
comparison `value != 0.0` classifies as nonzero. -/
lemma from_dense_mem (dense : List F32) (i : Nat) :
    i ∈ (from_dense_go 0 dense).1 ↔
      ∃ x, dense[i]? = some x ∧ x.neZero = true := by
  rw [from_dense_go_mem]
  constructor
  · rintro ⟨k, x, hk, hx, rfl⟩
    simpa using ⟨x, hk, hx⟩
  · rintro ⟨x, hx1, hx2⟩
    exact ⟨i, x, hx1, hx2, (Nat.zero_add i).symm⟩

/-! ## The claims -/

/-- Claim C1 (corrected form): `from_dense` fails exactly when the dense
input has length 65535 or more — the Rust guard is
`len >= u16::MAX as usize`, i.e. `len >= 65535` — and succeeds, returning a
`SparseVector`, exactly when the length is 65534 or less. -/
theorem c1_from_dense_boundary (dense : List F32) :
    (from_dense dense = none ↔ 65535 ≤ dense.length) ∧
    ((∃ v, from_dense dense = some v) ↔ dense.length < 65535) := by
  by_cases h : 65535 ≤ dense.length
  · rw [from_dense, if_pos h]
    refine ⟨⟨fun _ => h, fun _ => rfl⟩, ?_, ?_⟩
    · rintro ⟨v, hv⟩
      exact absurd hv (by simp)
    · intro hlt
      omega
  · rw [from_dense, if_neg h]
    refine ⟨⟨fun hv => absurd hv (by simp), fun hge => absurd hge h⟩, ?_, ?_⟩
    · intro _
      omega
    · intro _
      exact ⟨_, rfl⟩

/-- Claim C1, counterexample to the claim as stated: the claim requires a
dense vector of length exactly 65535 to succeed, but `from_dense` aborts on
it (the guard `len >= u16::MAX as usize` fires at 65535). -/
theorem c1_length_65535_fails :
    from_dense (List.replicate 65535 (F32.num 1)) = none := by
  have hl : 65535 ≤ (List.replicate 65535 (F32.num 1)).length := by
    rw [List.length_replicate]
  rw [from_dense, if_pos hl]

/-- Claim C5: a successful `from_dense` returns indices that are exactly the
positions of the entries with `value != 0.0` (exact IEEE comparison), in
ascending order, with the values positionally aligned copies of exactly
those entries. -/
theorem c5_from_dense_characterization (dense : List F32) (v : SparseVector F32)
    (h : from_dense dense = some v) :
    v.indices.Sorted (· < ·) ∧
    v.values.length = v.indices.length ∧
    (∀ i, i ∈ v.indices ↔ ∃ x, dense[i]? = some x ∧ x.neZero = true) ∧
    (∀ p ∈ v.indices.zip v.values, dense[p.1]? = some p.2) := by
  obtain ⟨hlen, hi, hv⟩ := from_dense_some h
  refine ⟨?_, ?_, ?_, ?_⟩
  · rw [hi]
    exact from_dense_go_sorted 0 dense
  · rw [hi, hv]
    exact from_dense_go_length 0 dense
  · intro i
    rw [hi]
    exact from_dense_mem dense i
  · intro p hp
    rw [hi, hv] at hp
    have := from_dense_go_pairs 0 dense p hp
    simpa using this.1

/-- Claim C5, witness: `from_dense [0.0, 2.0, -0.0, NaN]` keeps exactly
positions 1 and 3. -/
theorem c5_witness :
    (⟨[1, 3], [F32.num 2, F32.nan]⟩ : SparseVector F32).indices.Sorted (· < ·) ∧
    (⟨[1, 3], [F32.num 2, F32.nan]⟩ : SparseVector F32).values.length =
      (⟨[1, 3], [F32.num 2, F32.nan]⟩ : SparseVector F32).indices.length ∧
    (∀ i, i ∈ (⟨[1, 3], [F32.num 2, F32.nan]⟩ : SparseVector F32).indices ↔
      ∃ x, [F32.num 0, F32.num 2, F32.negZero, F32.nan][i]? = some x ∧
        x.neZero = true) ∧
    (∀ p ∈ (⟨[1, 3], [F32.num 2, F32.nan]⟩ : SparseVector F32).indices.zip
        (⟨[1, 3], [F32.num 2, F32.nan]⟩ : SparseVector F32).values,
      [F32.num 0, F32.num 2, F32.negZero, F32.nan][p.1]? = some p.2) :=
  c5_from_dense_characterization [F32.num 0, F32.num 2, F32.negZero, F32.nan]
    ⟨[1, 3], [F32.num 2, F32.nan]⟩ (by decide)

/-- Claim C6: every `SparseVector` produced by `from_dense` satisfies the
invariant — equal lengths, strictly ascending (hence duplicate-free)
indices. -/
theorem c6_from_dense_invariant (dense : List F32) (v : SparseVector F32)
    (h : from_dense dense = some v) :
    v.values.length = v.indices.length ∧ v.indices.Sorted (· < ·) ∧
      v.indices.Nodup := by
  obtain ⟨hlen, hi, hv⟩ := from_dense_some h
  refine ⟨?_, ?_, ?_⟩
  · rw [hi, hv]
    exact from_dense_go_length 0 dense
  · rw [hi]
    exact from_dense_go_sorted 0 dense
  · rw [hi]
    exact (from_dense_go_sorted 0 dense).nodup

/-- Claim C6, witness at `[0.0, 2.0, -0.0, NaN]`. -/
theorem c6_witness :
    (⟨[1, 3], [F32.num 2, F32.nan]⟩ : SparseVector F32).values.length =
      (⟨[1, 3], [F32.num 2, F32.nan]⟩ : SparseVector F32).indices.length ∧
    (⟨[1, 3], [F32.num 2, F32.nan]⟩ : SparseVector F32).indices.Sorted (· < ·) ∧
    (⟨[1, 3], [F32.num 2, F32.nan]⟩ : SparseVector F32).indices.Nodup :=
  c6_from_dense_invariant [F32.num 0, F32.num 2, F32.negZero, F32.nan]
    ⟨[1, 3], [F32.num 2, F32.nan]⟩ (by decide)

/-- Claim C10: under the exact `value != 0.0` test, a negative-zero entry
compares equal to zero and is omitted, while a NaN entry compares unequal
and is kept with its position recorded. -/
theorem c10_special_values (dense : List F32) (v : SparseVector F32)
    (h : from_dense dense = some v) :
    (∀ i, dense[i]? = some F32.negZero → i ∉ v.indices) ∧
    (∀ i, dense[i]? = some F32.nan → i ∈ v.indices) := by
  obtain ⟨hlen, hi, hv⟩ := from_dense_some h
  constructor
  · intro i hz hmem
    rw [hi] at hmem
    obtain ⟨x, hx1, hx2⟩ := (from_dense_mem dense i).mp hmem
    rw [hz] at hx1
    injection hx1 with hx1
    rw [← hx1] at hx2
    simp [F32.neZero] at hx2
  · intro i hn
    rw [hi]
    exact (from_dense_mem dense i).mpr ⟨F32.nan, hn, rfl⟩

/-- Claim C10, witness: in `[NaN, -0.0]` position 0 (NaN) is kept and
position 1 (negative zero) is dropped. -/
theorem c10_witness :
    (1 : Nat) ∉ (⟨[0], [F32.nan]⟩ : SparseVector F32).indices ∧
    (0 : Nat) ∈ (⟨[0], [F32.nan]⟩ : SparseVector F32).indices := by
  have h := c10_special_values [F32.nan, F32.negZero] ⟨[0], [F32.nan]⟩ (by decide)
  exact ⟨h.1 1 (by decide), h.2 0 (by decide)⟩

/-- Claim C2: on valid operands the scalar kernel and the vectorized
implementation (modelled from its spec contract, see
`simsimd_sparse_dot_product`) return the identical match count, and dot
products within 1e-6 relative tolerance (here: exactly equal, so the bound
holds with slack). -/
theorem c2_scalar_vectorized_equiv (a b : SparseVector Rat)
    (ha : a.Valid) (hb : b.Valid) :
    ∃ m d e, sparse_dot_product ratOps a b = some (m, d) ∧
      simsimd_sparse_dot_product ratOps a b = (m, e) ∧
      |d - e| ≤ 1 / 1000000 * |d| := by
  refine ⟨specCount a b % 65536, specDot ratOps a b, specDot ratOps a b,
    ?_, rfl, ?_⟩
  · rw [sparse_dot_product_eq_spec ratOps a b ha hb,
      matchedPairs_length a b ha hb]
  · rw [sub_self, abs_zero]
    positivity

/-- Claim C2, witness on the worked example of spec §8. -/
theorem c2_witness :
    ∃ m d e, sparse_dot_product ratOps ⟨[1, 3, 5], [2, 3, 4]⟩
        ⟨[1, 3, 5], [1, 1, 1]⟩ = some (m, d) ∧
      simsimd_sparse_dot_product ratOps ⟨[1, 3, 5], [2, 3, 4]⟩
        ⟨[1, 3, 5], [1, 1, 1]⟩ = (m, e) ∧
      |d - e| ≤ 1 / 1000000 * |d| :=
  c2_scalar_vectorized_equiv ⟨[1, 3, 5], [2, 3, 4]⟩ ⟨[1, 3, 5], [1, 1, 1]⟩
    (by decide) (by decide)

/-- Claim C3 (corrected form): on valid operands whose shared-index count
fits the 16-bit counter (at most 65535 — automatic whenever the index space
has size at most 65535), the returned match count is exactly the cardinality
of the set intersection of the two index arrays. -/
theorem c3_match_count (ops : FloatOps α β) (a b : SparseVector α)
    (ha : a.Valid) (hb : b.Valid) (hc : specCount a b ≤ 65535) :
    ∃ d, sparse_dot_product ops a b =
      some ((a.indices.toFinset ∩ b.indices.toFinset).card, d) := by
  have h := sparse_dot_product_eq_spec ops a b ha hb
  rw [matchedPairs_length a b ha hb, Nat.mod_eq_of_lt (by omega)] at h
  have hcard : specCount a b = (a.indices.toFinset ∩ b.indices.toFinset).card :=
    interList_length_eq_card a.indices b.indices ha.2.nodup
  rw [hcard] at h
  exact ⟨_, h⟩

/-- Two vectors carrying all indices `0 .. n-1` (with zero values) share all
`n` indices, and the kernel returns that count reduced mod 2^16.  Kept
general in `n` so that instantiating it at 65536 never forces a reduction of
`List.range 65536`. -/
lemma full_overlap_wraps_general (n : Nat) :
    ∃ d, sparse_dot_product intOps ⟨List.range n, List.replicate n 0⟩
        ⟨List.range n, List.replicate n 0⟩ = some (n % 65536, d) ∧
      ((List.range n).toFinset ∩ (List.range n).toFinset).card = n := by
  have hvalid : (⟨List.range n, List.replicate n 0⟩ :
      SparseVector Int).Valid := by
    constructor
    · show (List.replicate n (0 : Int)).length = (List.range n).length
      rw [List.length_replicate, List.length_range]
    · exact List.sorted_lt_range n
  have h := sparse_dot_product_eq_spec intOps _ _ hvalid hvalid
  rw [matchedPairs_length _ _ hvalid hvalid] at h
  have hfilter : List.filter (fun i => decide (i ∈ List.range n))
      (List.range n) = List.range n := by
    rw [List.filter_eq_self]
    intro x hx
    simpa using hx
  have hcount : specCount (⟨List.range n, List.replicate n 0⟩ :
      SparseVector Int) ⟨List.range n, List.replicate n 0⟩ = n := by
    show (interList (List.range n) (List.range n)).length = n
    rw [interList, hfilter, List.length_range]
  rw [hcount] at h
  refine ⟨_, h, ?_⟩
  rw [Finset.inter_self,
    List.toFinset_card_of_nodup (List.sorted_lt_range n).nodup,
    List.length_range]

/-- Claim C3, counterexample to the claim as stated: two (valid, strictly
sorted, duplicate-free) vectors carrying all 65536 representable `u16`
indices share 65536 indices, but the `u16` match counter wraps and the
kernel returns a match count of 0. -/
theorem c3_full_overlap_wraps :
    ∃ d, sparse_dot_product intOps
        ⟨List.range 65536, List.replicate 65536 0⟩
        ⟨List.range 65536, List.replicate 65536 0⟩ = some (0, d) ∧
      ((List.range 65536).toFinset ∩ (List.range 65536).toFinset).card =
        65536 := by
  obtain ⟨d, hd, hc⟩ := full_overlap_wraps_general 65536
  refine ⟨d, ?_, hc⟩
  rw [(by norm_num : (65536 : Nat) % 65536 = 0)] at hd
  exact hd

/-- Claim C3, witness for the corrected form. -/
theorem c3_witness :
    ∃ d, sparse_dot_product intOps ⟨[1, 3, 5], [2, 3, 4]⟩
        ⟨[1, 4, 5], [1, 1, 1]⟩ =
      some ((([1, 3, 5] : List Nat).toFinset ∩
        ([1, 4, 5] : List Nat).toFinset).card, d) :=
  c3_match_count intOps ⟨[1, 3, 5], [2, 3, 4]⟩ ⟨[1, 4, 5], [1, 1, 1]⟩
    (by decide) (by decide) (by decide)

/-- Claim C4: on valid operands the returned dot product is the left-to-right
sum, starting from `0.0`, of the matched value products, where each `f32`
product is promoted to double precision (`toDouble`) before being added into
the `f64` accumulator — for any interpretation of the three float
operations, in particular the IEEE ones. -/
theorem c4_promoted_accumulation (ops : FloatOps α β) (a b : SparseVector α)
    (ha : a.Valid) (hb : b.Valid) :
    sparse_dot_product ops a b =
      some ((matchedPairs a b).length % 65536,
        ((matchedPairs a b).map
          (fun p => ops.toDouble (ops.mul p.1 p.2))).foldl ops.add ops.zero) :=
  sparse_dot_product_eq_spec ops a b ha hb

/-- Claim C4, witness on the worked example of spec §8. -/
theorem c4_witness :
    sparse_dot_product intOps ⟨[1, 3, 5], [2, 3, 4]⟩ ⟨[1, 3, 5], [1, 1, 1]⟩ =
      some ((matchedPairs (⟨[1, 3, 5], [2, 3, 4]⟩ : SparseVector Int)
          ⟨[1, 3, 5], [1, 1, 1]⟩).length % 65536,
        ((matchedPairs (⟨[1, 3, 5], [2, 3, 4]⟩ : SparseVector Int)
          ⟨[1, 3, 5], [1, 1, 1]⟩).map
          (fun p => intOps.toDouble (intOps.mul p.1 p.2))).foldl
          intOps.add intOps.zero) :=
  c4_promoted_accumulation intOps ⟨[1, 3, 5], [2, 3, 4]⟩ ⟨[1, 3, 5], [1, 1, 1]⟩
    (by decide) (by decide)

/-- Claim C7: on valid operands over an index space of size at most 65535,
the kernel has no failure path — every slice access is in bounds (the run
ends in a normal `some` result, never the out-of-bounds `fault`) — and the
16-bit match counter never overflows (the shared-index count is at most
65535, so the returned count is it, unwrapped). -/
theorem c7_no_failure (ops : FloatOps α β) (a b : SparseVector α)
    (ha : a.Valid) (hb : b.Valid)
    (hia : ∀ x ∈ a.indices, x < 65535) (_hib : ∀ x ∈ b.indices, x < 65535) :
    ∃ d, sparse_dot_product ops a b = some (specCount a b, d) ∧
      specCount a b ≤ 65535 := by
  have h0 : specCount a b = (interList a.indices b.indices).length := rfl
  have h1 : (interList a.indices b.indices).length ≤ a.indices.length :=
    interList_length_le a.indices b.indices
  have h2 : a.indices.length ≤ 65535 :=
    sorted_lt_length_le a.indices ha.2 65535 hia
  have h := sparse_dot_product_eq_spec ops a b ha hb
  rw [matchedPairs_length a b ha hb, Nat.mod_eq_of_lt (by omega)] at h
  exact ⟨_, h, by omega⟩

/-- Claim C7, witness. -/
theorem c7_witness :
    ∃ d, sparse_dot_product intOps ⟨[1, 3, 5], [2, 3, 4]⟩
        ⟨[2, 4, 5], [1, 1, 1]⟩ =
      some (specCount (⟨[1, 3, 5], [2, 3, 4]⟩ : SparseVector Int)
        ⟨[2, 4, 5], [1, 1, 1]⟩, d) ∧
      specCount (⟨[1, 3, 5], [2, 3, 4]⟩ : SparseVector Int)
        ⟨[2, 4, 5], [1, 1, 1]⟩ ≤ 65535 :=
  c7_no_failure intOps ⟨[1, 3, 5], [2, 3, 4]⟩ ⟨[2, 4, 5], [1, 1, 1]⟩
    (by decide) (by decide) (by decide) (by decide)

/-- Claim C8: the merge loop terminates on every pair of inputs, sorted or
not — fuel equal to the remaining cursor travel `(len(a) - i) + (len(b) - j)`
always suffices, since every iteration advances at least one cursor (at
`i = j = 0` this is the fuel `sparse_dot_product` supplies, so the whole
kernel is total) — and it exits immediately once either cursor has reached
the end of its array. -/
theorem c8_loop_terminates (ops : FloatOps α β) (a b : SparseVector α)
    (i j mcount : Nat) (acc : β) :
    (sdpLoop ops a b (a.indices.length - i + (b.indices.length - j))
        i j mcount acc).halts = true ∧
    ∀ fuel, a.indices.length ≤ i ∨ b.indices.length ≤ j →
      sdpLoop ops a b fuel i j mcount acc = .out mcount acc := by
  refine ⟨sdpLoop_halts ops a b _ i j mcount acc (Nat.le_refl _), ?_⟩
  intro fuel hor
  exact sdpLoop_of_neg ops a b fuel i j mcount acc (by omega)

/-- Claim C9: the kernel is commutative — swapping the operands gives the
identical result, because matched pairs are visited in the same order and
the value multiplication (here: any commutative interpretation of `f32`
multiplication) is commutative. -/
theorem c9_commutative (ops : FloatOps α β) (a b : SparseVector α)
    (hmul : ∀ x y, ops.mul x y = ops.mul y x)
    (_ha : a.Valid) (_hb : b.Valid) :
    sparse_dot_product ops a b = sparse_dot_product ops b a := by
  rw [sparse_dot_product, sparse_dot_product,
    sdpLoop_comm ops hmul a b (a.indices.length + b.indices.length) 0 0 0
      ops.zero,
    Nat.add_comm a.indices.length b.indices.length]

/-- Claim C9, witness. -/
theorem c9_witness :
    sparse_dot_product intOps ⟨[1, 3, 5], [2, 3, 4]⟩ ⟨[1, 4, 5], [1, 1, 1]⟩ =
      sparse_dot_product intOps ⟨[1, 4, 5], [1, 1, 1]⟩ ⟨[1, 3, 5], [2, 3, 4]⟩ :=
  c9_commutative intOps ⟨[1, 3, 5], [2, 3, 4]⟩ ⟨[1, 4, 5], [1, 1, 1]⟩
    (fun x y => Int.mul_comm x y) (by decide) (by decide)

end BenchSpdot
